import Mathlib

/-!
Verification of the Package Resolution & Ordering Engine of the TheRock
build tools (`build_tools/install_packages.py`,
`build_tools/packaging/linux/package_load.py`,
`build_tools/packaging/linux/build_package.py`).

The Python sources are shallowly embedded: manifest entries become a
structure, Python dicts become ordered association lists with dict
insertion semantics, Python sets (used only through membership tests)
become lists queried through membership, regular expression matches
become executable character-list parsers, and `list.sort` (a stable sort
by a total key) becomes a stable insertion sort by the same key order
(stable sorts by one total comparison agree pointwise).
-/

namespace TheRock

/-- One manifest entry (a JSON object from `package.json`).
`package` is the raw `"Package"` field (`none` when the key is absent),
`composite` the raw `"Composite"` field, `debDepends`/`rpmRequires` the
dependency lists (absent key = `[]`), `gfxarch` the raw `"Gfxarch"` field. -/
structure PkgEntry where
  package : Option String := none
  composite : Option String := none
  debDepends : List String := []
  rpmRequires : List String := []
  gfxarch : Option String := none
deriving Repr, DecidableEq

/-- A Python dict mapping package names to dependency-name lists,
modelled as an association list in insertion order (Python 3.7+ dicts
iterate in insertion order). -/
abbrev Graph := List (String × List String)

/-- `graph.get(pkg, [])`. -/
def findDeps (g : Graph) (pkg : String) : List String :=
  match g.find? (fun p => p.1 == pkg) with
  | some p => p.2
  | none => []

/-- The keys of the dict, in insertion order (`for pkg in graph`). -/
def gkeys (g : Graph) : List String := g.map (fun p => p.1)

/-- `d[k] = v` on a Python dict: replaces the value in place if `k` is
already a key, otherwise appends the binding at the end. -/
def dictInsert (g : Graph) (k : String) (v : List String) : Graph :=
  match g with
  | [] => [(k, v)]
  | p :: rest => if p.1 == k then (k, v) :: rest else p :: dictInsert rest k v

/-- Dependency key selection in `build_dependency_graph`:
`"RPMRequires" if use_rpm else "DEBDepends"`. -/
def depKey (use_rpm : Bool) (p : PkgEntry) : List String :=
  if use_rpm then p.rpmRequires else p.debDepends

/-- `{p["Package"] for p in packages if "Package" in p}` — the name set is
only ever used through membership tests, so a list with the same members
is a faithful model. -/
def pkgNames (packages : List PkgEntry) : List String :=
  packages.filterMap (fun p => p.package)

/-- The loop of `build_dependency_graph`; `none` models the `KeyError`
raised by `pkg["Package"]` when an entry has no `"Package"` key. -/
def bdgGo (names : List String) (use_rpm : Bool) :
    List PkgEntry → Graph → Option Graph
  | [], acc => some acc
  | p :: ps, acc =>
    match p.package with
    | none => none
    | some name =>
        bdgGo names use_rpm ps
          (dictInsert acc name ((depKey use_rpm p).filter (fun d => d ∈ names)))

/-- `build_dependency_graph(packages, use_rpm)` from
`build_tools/install_packages.py` (identical to
`LoadPackages._build_dependency_graph`). -/
def build_dependency_graph (packages : List PkgEntry) (use_rpm : Bool) :
    Option Graph :=
  bdgGo (pkgNames packages) use_rpm packages []

/-- State of the DFS: the `visited` set (a Python `set`, used only through
membership, recorded here in insertion order) and the accumulated
`sorted_list`. -/
abbrev DfsState := List String × List String

/-- A `for` loop threading the DFS state through a step function:
`for d in ds: step(d)`. -/
def goList (step : String → DfsState → DfsState) :
    List String → DfsState → DfsState
  | [], st => st
  | d :: rest, st => goList step rest (step d st)

/-- The inner closure `visit(pkg)` of `dfs_sort`.  The Python recursion is
unbounded; here a fuel argument drives the recursion and `visitStable`
below shows the fuel chosen in `dfs_sort` is enough, so the cut-off
branch is never semantically relevant. -/
def visit (g : Graph) : Nat → String → DfsState → DfsState
  | 0, _, st => st
  | Nat.succ f, pkg, st =>
    if pkg ∈ st.1 then st
    else
      let st2 := goList (fun d st1 => visit g f d st1) (findDeps g pkg)
        (pkg :: st.1, st.2)
      (st2.1, st2.2 ++ [pkg])

/-- `for dep in graph.get(pkg, []): visit(dep)` at a given fuel level —
and, reused at top level, `for pkg in graph: visit(pkg)`. -/
def visitList (g : Graph) (fuel : Nat) (ds : List String) (st : DfsState) :
    DfsState :=
  goList (fun d st1 => visit g fuel d st1) ds st

/-- All names relevant to the traversal: the dict keys together with every
name occurring in a dependency list. -/
def univList (g : Graph) : List String :=
  gkeys g ++ (g.map (fun p => p.2)).flatten

/-- The same universe as a finite set. -/
def univS (g : Graph) : Finset String := (univList g).toFinset

/-- Number of universe elements not yet visited; the termination measure
of the DFS. -/
def unvis (g : Graph) (v : List String) : Nat :=
  ((univS g).filter (fun x => ¬ x ∈ v)).card

/-- Fuel sufficient for a complete traversal from an empty visited set. -/
def fuelOf (g : Graph) : Nat := (univS g).card + 1

/-- `dfs_sort(graph)` from `build_tools/install_packages.py` (identical to
`LoadPackages._dfs_sort`): post-order DFS over the dict keys in insertion
order, returning `sorted_list`. -/
def dfs_sort (g : Graph) : List String :=
  (visitList g (fuelOf g) (gkeys g) ([], [])).2

/-- `dfs_sort` run at an arbitrary fuel level, used to state that the
recursion depth needed is bounded (the Python recursion terminates). -/
def dfs_sortFuel (fuel : Nat) (g : Graph) : List String :=
  (visitList g fuel (gkeys g) ([], [])).2

lemma visit_zero (g : Graph) (pkg : String) (st : DfsState) :
    visit g 0 pkg st = st := rfl

lemma visit_succ (g : Graph) (f : Nat) (pkg : String) (st : DfsState) :
    visit g (f + 1) pkg st =
      if pkg ∈ st.1 then st
      else
        let st2 := goList (fun d st1 => visit g f d st1) (findDeps g pkg)
          (pkg :: st.1, st.2)
        (st2.1, st2.2 ++ [pkg]) := rfl

lemma mem_gkeys_of_findDeps_ne_nil {g : Graph} {pkg : String}
    (h : findDeps g pkg ≠ []) : pkg ∈ gkeys g := by
  unfold findDeps at h
  rcases hf : g.find? (fun p => p.1 == pkg) with _ | p
  · rw [hf] at h; exact absurd rfl h
  · have hm := List.mem_of_find?_eq_some hf
    have hp := List.find?_some hf
    have : p.1 = pkg := by simpa using hp
    subst this
    exact List.mem_map.2 ⟨p, hm, rfl⟩

lemma mem_univS_of_mem_gkeys {g : Graph} {pkg : String}
    (h : pkg ∈ gkeys g) : pkg ∈ univS g := by
  unfold univS univList
  exact List.mem_toFinset.2 (List.mem_append.2 (Or.inl h))

lemma unvis_lt_of_mem {g : Graph} {pkg : String} {v : List String}
    (hu : pkg ∈ univS g) (hv : pkg ∉ v) :
    unvis g (pkg :: v) < unvis g v := by
  apply Finset.card_lt_card
  constructor
  · intro x hx
    rcases Finset.mem_filter.1 hx with ⟨hx1, hx2⟩
    refine Finset.mem_filter.2 ⟨hx1, fun hxv => hx2 ?_⟩
    exact List.mem_cons_of_mem _ hxv
  · intro hsub
    have hmem : pkg ∈ (univS g).filter (fun x => ¬ x ∈ v) :=
      Finset.mem_filter.2 ⟨hu, hv⟩
    have := Finset.mem_filter.1 (hsub hmem)
    exact this.2 (List.mem_cons_self _ _)

lemma unvis_le_of_subset {g : Graph} {v1 v2 : List String}
    (h : ∀ x, x ∈ v1 → x ∈ v2) : unvis g v2 ≤ unvis g v1 := by
  apply Finset.card_le_card
  intro x hx
  rcases Finset.mem_filter.1 hx with ⟨hx1, hx2⟩
  exact Finset.mem_filter.2 ⟨hx1, fun hv => hx2 (h x hv)⟩

/-- Effect of a completed traversal step on the DFS state: the output
list grows by a block `n` of previously unvisited, pairwise distinct
names, and the visited set grows by exactly that block. -/
def Extends (v s v' s' : List String) : Prop :=
  ∃ n, s' = s ++ n ∧ n.Nodup ∧ (∀ x ∈ n, x ∉ v) ∧
    (∀ x, x ∈ v' ↔ x ∈ v ∨ x ∈ n)

lemma extends_refl (v s : List String) : Extends v s v s :=
  ⟨[], by simp⟩

lemma extends_trans {v s v1 s1 v2 s2 : List String}
    (h1 : Extends v s v1 s1) (h2 : Extends v1 s1 v2 s2) :
    Extends v s v2 s2 := by
  rcases h1 with ⟨n1, hs1, hn1, hd1, hm1⟩
  rcases h2 with ⟨n2, hs2, hn2, hd2, hm2⟩
  refine ⟨n1 ++ n2, by simp [hs2, hs1], ?_, ?_, ?_⟩
  · refine hn1.append hn2 ?_
    intro x hx1 hx2
    exact hd2 x hx2 ((hm1 x).2 (Or.inr hx1))
  · intro x hx
    rcases List.mem_append.1 hx with hx | hx
    · exact hd1 x hx
    · intro hv
      exact hd2 x hx ((hm1 x).2 (Or.inl hv))
  · intro x
    rw [hm2 x, hm1 x, List.mem_append]
    tauto

lemma extends_mono {v s v' s' : List String} (h : Extends v s v' s') :
    ∀ x, x ∈ v → x ∈ v' := by
  rcases h with ⟨n, _, _, _, hm⟩
  intro x hx
  exact (hm x).2 (Or.inl hx)

/-- The structural specification of `visit` at a given fuel level:
whenever the fuel dominates the number of unvisited names (or the call is
a no-op on an already-visited name), the call extends the state and marks
its argument visited. -/
def VisitGood (g : Graph) (f : Nat) : Prop :=
  ∀ pkg v s, (unvis g v < f ∨ pkg ∈ v) →
    Extends v s (visit g f pkg (v, s)).1 (visit g f pkg (v, s)).2 ∧
    pkg ∈ (visit g f pkg (v, s)).1

lemma goList_visitGood {g : Graph} {f : Nat} (hv : VisitGood g f) :
    ∀ (ds : List String) (v s : List String), unvis g v < f →
    Extends v s (goList (fun d st1 => visit g f d st1) ds (v, s)).1
      (goList (fun d st1 => visit g f d st1) ds (v, s)).2 ∧
    ∀ d ∈ ds, d ∈ (goList (fun d st1 => visit g f d st1) ds (v, s)).1 := by
  intro ds
  induction ds with
  | nil => intro v s _; exact ⟨extends_refl v s, by simp⟩
  | cons d rest ih =>
    intro v s hva
    have h1 := hv d v s (Or.inl hva)
    have hsub := extends_mono h1.1
    have hva1 : unvis g (visit g f d (v, s)).1 < f :=
      lt_of_le_of_lt (unvis_le_of_subset hsub) hva
    have ih1 := ih (visit g f d (v, s)).1 (visit g f d (v, s)).2 hva1
    have hgl : goList (fun d st1 => visit g f d st1) (d :: rest) (v, s) =
        goList (fun d st1 => visit g f d st1) rest
          ((visit g f d (v, s)).1, (visit g f d (v, s)).2) := by
      simp [goList]
    rw [hgl]
    refine ⟨extends_trans h1.1 ih1.1, ?_⟩
    intro d' hd'
    rcases List.mem_cons.1 hd' with hd' | hd'
    · subst hd'
      exact extends_mono ih1.1 d' h1.2
    · exact ih1.2 d' hd'

lemma visitGood (g : Graph) : ∀ f, VisitGood g f := by
  intro f
  induction f with
  | zero =>
    intro pkg v s h
    rcases h with h | h
    · omega
    · exact ⟨extends_refl v s, h⟩
  | succ f ih =>
    intro pkg v s h
    by_cases hp : pkg ∈ v
    · have he : visit g (f + 1) pkg (v, s) = (v, s) := by
        rw [visit_succ]; simp [hp]
      rw [he]
      exact ⟨extends_refl v s, hp⟩
    · have hva : unvis g v < f + 1 := by
        rcases h with h | h
        · exact h
        · exact absurd h hp
      have he : visit g (f + 1) pkg (v, s) =
          ((goList (fun d st1 => visit g f d st1) (findDeps g pkg)
              (pkg :: v, s)).1,
           (goList (fun d st1 => visit g f d st1) (findDeps g pkg)
              (pkg :: v, s)).2 ++ [pkg]) := by
        rw [visit_succ]; simp [hp]
      rw [he]
      by_cases hd : findDeps g pkg = []
      · simp only [hd, goList]
        refine ⟨⟨[pkg], by simp, by simp, ?_, ?_⟩, ?_⟩
        · simpa using hp
        · intro x; simp [List.mem_cons, or_comm]
        · exact List.mem_cons_self _ _
      · have hk : pkg ∈ univS g :=
          mem_univS_of_mem_gkeys (mem_gkeys_of_findDeps_ne_nil hd)
        have hva2 : unvis g (pkg :: v) < f :=
          lt_of_lt_of_le (unvis_lt_of_mem hk hp) (by omega)
        have hgl := goList_visitGood ih (findDeps g pkg) (pkg :: v) s hva2
        rcases hgl.1 with ⟨n2, hs2, hn2, hd2, hm2⟩
        constructor
        · refine ⟨n2 ++ [pkg], by simp [hs2], ?_, ?_, ?_⟩
          · refine hn2.append (by simp) ?_
            intro x hx1 hx2
            rcases List.mem_singleton.1 hx2 with rfl
            exact hd2 x hx1 (List.mem_cons_self _ _)
          · intro x hx
            rcases List.mem_append.1 hx with hx | hx
            · intro hv1
              exact hd2 x hx (List.mem_cons_of_mem _ hv1)
            · rcases List.mem_singleton.1 hx with rfl
              exact hp
          · intro x
            rw [hm2 x]
            simp [List.mem_cons, List.mem_append]
            tauto
        · show pkg ∈ _
          exact (hm2 pkg).2 (Or.inl (List.mem_cons_self _ _))

/-- `a` directly depends on `b`: `b ∈ graph.get(a, [])`. -/
def Edge (g : Graph) (a b : String) : Prop := b ∈ findDeps g a

/-- `b` is a direct or transitive dependency of `a`. -/
inductive DepPlus (g : Graph) : String → String → Prop
  | single : ∀ {a b : String}, Edge g a b → DepPlus g a b
  | tail : ∀ {a b c : String}, DepPlus g a b → Edge g b c → DepPlus g a c

/-- The dependency graph has no cyclic dependency chains. -/
def Acyclic (g : Graph) : Prop := ∀ x, ¬ DepPlus g x x

/-- `b` occurs strictly before `a` in the list `s`. -/
def before (s : List String) (b a : String) : Prop :=
  b ∈ s ∧ a ∈ s ∧ s.indexOf b < s.indexOf a

lemma before_append {s : List String} {b a : String} (t : List String)
    (h : before s b a) : before (s ++ t) b a := by
  obtain ⟨hb, ha, hi⟩ := h
  refine ⟨List.mem_append_left t hb, List.mem_append_left t ha, ?_⟩
  rw [List.indexOf_append_of_mem hb, List.indexOf_append_of_mem ha]
  exact hi

lemma before_snoc {s : List String} {b a : String} (hb : b ∈ s)
    (ha : a ∉ s) : before (s ++ [a]) b a := by
  refine ⟨List.mem_append_left _ hb,
    List.mem_append_right _ (List.mem_singleton.2 rfl), ?_⟩
  rw [List.indexOf_append_of_mem hb, List.indexOf_append_of_not_mem ha]
  have := List.indexOf_lt_length.2 hb
  omega

lemma before_trans {s : List String} {x y z : String}
    (h1 : before s x y) (h2 : before s y z) : before s x z :=
  ⟨h1.1, h2.2.1, lt_trans h1.2.2 h2.2.2⟩

/-- Every name already emitted has all its direct dependencies emitted
strictly earlier. -/
def OrderClosed (g : Graph) (s : List String) : Prop :=
  ∀ a ∈ s, ∀ b, Edge g a b → before s b a

lemma orderClosed_depPlus {g : Graph} {s : List String}
    (h : OrderClosed g s) {a b : String} (ha : a ∈ s)
    (hd : DepPlus g a b) : before s b a := by
  induction hd with
  | single e => exact h _ ha _ e
  | tail _ e ih =>
    have hb := ih
    exact before_trans (h _ hb.1 _ e) hb

/-- The full invariant of the ordered DFS: `G` is the set of grey names
(entered but not yet emitted), the emitted list is duplicate-free and
dependency-closed. -/
def Inv2 (g : Graph) (G v s : List String) : Prop :=
  (∀ x, x ∈ v ↔ x ∈ s ∨ x ∈ G) ∧ (∀ x ∈ G, x ∉ s) ∧ s.Nodup ∧
    OrderClosed g s

/-- Ordering specification of `visit` at a fuel level: it preserves the
invariant, emits its argument, and only appends to the output. -/
def VisitOrd (g : Graph) (f : Nat) : Prop :=
  ∀ pkg v s G, (unvis g v < f ∨ pkg ∈ v) → Inv2 g G v s →
    (∀ x ∈ G, DepPlus g x pkg) →
    Inv2 g G (visit g f pkg (v, s)).1 (visit g f pkg (v, s)).2 ∧
    pkg ∈ (visit g f pkg (v, s)).2 ∧
    ∃ n, (visit g f pkg (v, s)).2 = s ++ n

lemma goList_visitOrd {g : Graph} {f : Nat}
    (hvo : VisitOrd g f) :
    ∀ (ds v s G : List String), unvis g v < f → Inv2 g G v s →
    (∀ x ∈ G, ∀ d ∈ ds, DepPlus g x d) →
    Inv2 g G (goList (fun d st1 => visit g f d st1) ds (v, s)).1
      (goList (fun d st1 => visit g f d st1) ds (v, s)).2 ∧
    (∀ d ∈ ds, d ∈ (goList (fun d st1 => visit g f d st1) ds (v, s)).2) ∧
    ∃ n, (goList (fun d st1 => visit g f d st1) ds (v, s)).2 = s ++ n := by
  intro ds
  induction ds with
  | nil =>
    intro v s G _ hI _
    exact ⟨hI, by simp, ⟨[], by simp [goList]⟩⟩
  | cons d rest ih =>
    intro v s G hva hI hG
    have h1 := hvo d v s G (Or.inl hva) hI (fun x hx => hG x hx d (by simp))
    obtain ⟨hI1, hd1, n1, hn1⟩ := h1
    have hsub : ∀ x, x ∈ v → x ∈ (visit g f d (v, s)).1 := by
      intro x hx
      rcases (hI.1 x).1 hx with hx' | hx'
      · exact (hI1.1 x).2 (Or.inl (by rw [hn1]; exact List.mem_append_left _ hx'))
      · exact (hI1.1 x).2 (Or.inr hx')
    have hva1 : unvis g (visit g f d (v, s)).1 < f :=
      lt_of_le_of_lt (unvis_le_of_subset hsub) hva
    have ih1 := ih (visit g f d (v, s)).1 (visit g f d (v, s)).2 G hva1 hI1
      (fun x hx d' hd' => hG x hx d' (List.mem_cons_of_mem _ hd'))
    have hgl : goList (fun d st1 => visit g f d st1) (d :: rest) (v, s) =
        goList (fun d st1 => visit g f d st1) rest
          ((visit g f d (v, s)).1, (visit g f d (v, s)).2) := by
      simp [goList]
    rw [hgl]
    obtain ⟨ihI, ihmem, n2, hn2⟩ := ih1
    refine ⟨ihI, ?_, ⟨n1 ++ n2, by rw [hn2, hn1, List.append_assoc]⟩⟩
    intro d' hd'
    rcases List.mem_cons.1 hd' with rfl | hd'
    · rw [hn2]; exact List.mem_append_left _ hd1
    · exact ihmem d' hd'

lemma visitOrd {g : Graph} (hA : Acyclic g) : ∀ f, VisitOrd g f := by
  intro f
  induction f with
  | zero =>
    intro pkg v s G h hI hG
    rcases h with h | h
    · omega
    · have hps : pkg ∈ s := by
        rcases (hI.1 pkg).1 h with h' | h'
        · exact h'
        · exact absurd (hG pkg h') (hA pkg)
      exact ⟨hI, hps, ⟨[], by simp [visit_zero]⟩⟩
  | succ f ih =>
    intro pkg v s G h hI hG
    by_cases hp : pkg ∈ v
    · have he : visit g (f + 1) pkg (v, s) = (v, s) := by
        rw [visit_succ]; simp [hp]
      rw [he]
      have hps : pkg ∈ s := by
        rcases (hI.1 pkg).1 hp with h' | h'
        · exact h'
        · exact absurd (hG pkg h') (hA pkg)
      exact ⟨hI, hps, ⟨[], by simp⟩⟩
    · have hva : unvis g v < f + 1 := by
        rcases h with h | h
        · exact h
        · exact absurd h hp
      have hpns : pkg ∉ s := fun hs => hp ((hI.1 pkg).2 (Or.inl hs))
      have hGpkg : pkg ∉ G := fun hGp => hA pkg (hG pkg hGp)
      have he : visit g (f + 1) pkg (v, s) =
          ((goList (fun d st1 => visit g f d st1) (findDeps g pkg)
              (pkg :: v, s)).1,
           (goList (fun d st1 => visit g f d st1) (findDeps g pkg)
              (pkg :: v, s)).2 ++ [pkg]) := by
        rw [visit_succ]; simp [hp]
      rw [he]
      by_cases hd : findDeps g pkg = []
      · simp only [hd, goList]
        refine ⟨⟨?_, ?_, ?_, ?_⟩, ?_, ⟨[pkg], rfl⟩⟩
        · intro x
          rw [List.mem_cons, hI.1 x]
          simp [List.mem_append]
          tauto
        · intro x hx
          intro hxs
          rcases List.mem_append.1 hxs with hxs | hxs
          · exact hI.2.1 x hx hxs
          · rcases List.mem_singleton.1 hxs with rfl
            exact hGpkg hx
        · exact hI.2.2.1.append (by simp) (fun x hx hx2 => by
            rcases List.mem_singleton.1 hx2 with rfl
            exact hpns hx)
        · intro a ha b e
          rcases List.mem_append.1 ha with ha | ha
          · exact before_append [pkg] (hI.2.2.2 a ha b e)
          · rcases List.mem_singleton.1 ha with rfl
            rw [Edge, hd] at e
            exact absurd e (List.not_mem_nil b)
        · exact List.mem_append_right _ (List.mem_singleton.2 rfl)
      · have hk : pkg ∈ univS g :=
          mem_univS_of_mem_gkeys (mem_gkeys_of_findDeps_ne_nil hd)
        have hva2 : unvis g (pkg :: v) < f :=
          lt_of_lt_of_le (unvis_lt_of_mem hk hp) (by omega)
        have hI' : Inv2 g (pkg :: G) (pkg :: v) s := by
          refine ⟨?_, ?_, hI.2.2.1, hI.2.2.2⟩
          · intro x
            rw [List.mem_cons, hI.1 x, List.mem_cons]
            tauto
          · intro x hx
            rcases List.mem_cons.1 hx with rfl | hx
            · exact hpns
            · exact hI.2.1 x hx
        have hG' : ∀ x ∈ pkg :: G, ∀ d ∈ findDeps g pkg, DepPlus g x d := by
          intro x hx d hdd
          rcases List.mem_cons.1 hx with rfl | hx
          · exact DepPlus.single hdd
          · exact DepPlus.tail (hG x hx) hdd
        have hgl := goList_visitOrd ih (findDeps g pkg) (pkg :: v) s
          (pkg :: G) hva2 hI' hG'
        obtain ⟨⟨hm2, hdisj2, hnd2, hoc2⟩, hmem2, n2, hn2⟩ := hgl
        have hpkg_ns2 :
            pkg ∉ (goList (fun d st1 => visit g f d st1) (findDeps g pkg)
              (pkg :: v, s)).2 :=
          hdisj2 pkg (List.mem_cons_self _ _)
        refine ⟨⟨?_, ?_, ?_, ?_⟩, ?_, ⟨n2 ++ [pkg], by rw [hn2, List.append_assoc]⟩⟩
        · intro x
          rw [hm2 x]
          simp only [List.mem_append, List.mem_singleton, List.mem_cons]
          tauto
        · intro x hx hxs
          rcases List.mem_append.1 hxs with hxs | hxs
          · exact hdisj2 x (List.mem_cons_of_mem _ hx) hxs
          · rcases List.mem_singleton.1 hxs with rfl
            exact hA x (hG x hx)
        · exact hnd2.append (by simp) (fun x hx hx2 => by
            rcases List.mem_singleton.1 hx2 with rfl
            exact hpkg_ns2 hx)
        · intro a ha b e
          rcases List.mem_append.1 ha with ha | ha
          · exact before_append [pkg] (hoc2 a ha b e)
          · rcases List.mem_singleton.1 ha with rfl
            exact before_snoc (hmem2 b e) hpkg_ns2
        · exact List.mem_append_right _ (List.mem_singleton.2 rfl)

lemma visit_mem {g : Graph} {pkg : String} {v s : List String}
    (hp : pkg ∈ v) : ∀ f, visit g f pkg (v, s) = (v, s) := by
  intro f
  cases f with
  | zero => rfl
  | succ f => rw [visit_succ]; simp [hp]

/-- Fuel irrelevance: any two sufficient fuel levels give the same
traversal, so the fuel is a proof artifact and the Python recursion
(which has none) is modelled faithfully. -/
def VisitStable (g : Graph) (f1 : Nat) : Prop :=
  ∀ f2 pkg v s, (unvis g v < f1 ∨ pkg ∈ v) → (unvis g v < f2 ∨ pkg ∈ v) →
    visit g f1 pkg (v, s) = visit g f2 pkg (v, s)

lemma goList_stable {g : Graph} {f1 : Nat} (hst : VisitStable g f1) :
    ∀ (ds v s : List String) (f2 : Nat), unvis g v < f1 → unvis g v < f2 →
    goList (fun d st1 => visit g f1 d st1) ds (v, s) =
    goList (fun d st1 => visit g f2 d st1) ds (v, s) := by
  intro ds
  induction ds with
  | nil => intro v s f2 _ _; rfl
  | cons d rest ih =>
    intro v s f2 h1 h2
    have hstep : visit g f1 d (v, s) = visit g f2 d (v, s) :=
      hst f2 d v s (Or.inl h1) (Or.inl h2)
    have hg := extends_mono (visitGood g f1 d v s (Or.inl h1)).1
    have hva1 : unvis g (visit g f1 d (v, s)).1 < f1 :=
      lt_of_le_of_lt (unvis_le_of_subset hg) h1
    have hva2 : unvis g (visit g f1 d (v, s)).1 < f2 :=
      lt_of_le_of_lt (unvis_le_of_subset hg) h2
    have hgl1 : goList (fun d st1 => visit g f1 d st1) (d :: rest) (v, s) =
        goList (fun d st1 => visit g f1 d st1) rest
          ((visit g f1 d (v, s)).1, (visit g f1 d (v, s)).2) := by
      simp [goList]
    have hgl2 : goList (fun d st1 => visit g f2 d st1) (d :: rest) (v, s) =
        goList (fun d st1 => visit g f2 d st1) rest
          ((visit g f1 d (v, s)).1, (visit g f1 d (v, s)).2) := by
      simp [goList, hstep]
    rw [hgl1, hgl2]
    exact ih _ _ f2 hva1 hva2

lemma visitStable (g : Graph) : ∀ f1, VisitStable g f1 := by
  intro f1
  induction f1 with
  | zero =>
    intro f2 pkg v s h1 _
    have hp : pkg ∈ v := by
      rcases h1 with h1 | h1
      · omega
      · exact h1
    rw [visit_zero, visit_mem hp]
  | succ f1 ih =>
    intro f2 pkg v s h1 h2
    by_cases hp : pkg ∈ v
    · rw [visit_mem hp, visit_mem hp]
    · have hva1 : unvis g v < f1 + 1 := by
        rcases h1 with h1 | h1
        · exact h1
        · exact absurd h1 hp
      have hva2 : unvis g v < f2 := by
        rcases h2 with h2 | h2
        · exact h2
        · exact absurd h2 hp
      cases f2 with
      | zero => omega
      | succ f2 =>
        rw [visit_succ, visit_succ]
        simp only [hp, if_neg, not_false_iff]
        by_cases hd : findDeps g pkg = []
        · simp [hd, goList]
        · have hk : pkg ∈ univS g :=
            mem_univS_of_mem_gkeys (mem_gkeys_of_findDeps_ne_nil hd)
          have hlt := unvis_lt_of_mem hk hp
          have := goList_stable ih (findDeps g pkg) (pkg :: v) s f2
            (by omega) (by omega)
          simp only [this]

/-- Two visited collections with the same members. -/
def MemEq (v1 v2 : List String) : Prop := ∀ x, x ∈ v1 ↔ x ∈ v2

lemma goList_rep {g : Graph} {f : Nat}
    (hr : ∀ pkg v1 v2 s, MemEq v1 v2 →
      MemEq (visit g f pkg (v1, s)).1 (visit g f pkg (v2, s)).1 ∧
      (visit g f pkg (v1, s)).2 = (visit g f pkg (v2, s)).2) :
    ∀ (ds v1 v2 s : List String), MemEq v1 v2 →
    MemEq (goList (fun d st1 => visit g f d st1) ds (v1, s)).1
      (goList (fun d st1 => visit g f d st1) ds (v2, s)).1 ∧
    (goList (fun d st1 => visit g f d st1) ds (v1, s)).2 =
      (goList (fun d st1 => visit g f d st1) ds (v2, s)).2 := by
  intro ds
  induction ds with
  | nil => intro v1 v2 s h; exact ⟨h, rfl⟩
  | cons d rest ih =>
    intro v1 v2 s h
    obtain ⟨hm, hs⟩ := hr d v1 v2 s h
    have hgl1 : goList (fun d st1 => visit g f d st1) (d :: rest) (v1, s) =
        goList (fun d st1 => visit g f d st1) rest
          ((visit g f d (v1, s)).1, (visit g f d (v1, s)).2) := by
      simp [goList]
    have hgl2 : goList (fun d st1 => visit g f d st1) (d :: rest) (v2, s) =
        goList (fun d st1 => visit g f d st1) rest
          ((visit g f d (v2, s)).1, (visit g f d (v2, s)).2) := by
      simp [goList]
    rw [hgl1, hgl2, ← hs]
    exact ih _ _ _ hm

/-- The `visited` accumulator only matters through membership: any two
representations of the same set of names produce the same output order. -/
lemma visitRep (g : Graph) : ∀ (f : Nat) (pkg : String)
    (v1 v2 s : List String), MemEq v1 v2 →
    MemEq (visit g f pkg (v1, s)).1 (visit g f pkg (v2, s)).1 ∧
    (visit g f pkg (v1, s)).2 = (visit g f pkg (v2, s)).2 := by
  intro f
  induction f with
  | zero => intro pkg v1 v2 s h; exact ⟨h, rfl⟩
  | succ f ih =>
    intro pkg v1 v2 s h
    by_cases hp : pkg ∈ v1
    · have hp2 : pkg ∈ v2 := (h pkg).1 hp
      rw [visit_mem hp, visit_mem hp2]
      exact ⟨h, rfl⟩
    · have hp2 : pkg ∉ v2 := fun hx => hp ((h pkg).2 hx)
      rw [visit_succ, visit_succ]
      simp only [hp, hp2, if_neg, not_false_iff]
      have hcons : MemEq (pkg :: v1) (pkg :: v2) := by
        intro x
        rw [List.mem_cons, List.mem_cons, h x]
      obtain ⟨hm, hs⟩ := goList_rep ih (findDeps g pkg) (pkg :: v1)
        (pkg :: v2) s hcons
      exact ⟨hm, by rw [hs]⟩

lemma unvis_nil (g : Graph) : unvis g [] = (univS g).card := by
  unfold unvis
  rw [Finset.filter_true_of_mem]
  intro x _
  exact List.not_mem_nil x

lemma unvis_nil_lt_fuelOf (g : Graph) : unvis g [] < fuelOf g := by
  rw [unvis_nil]; unfold fuelOf; omega

lemma inv2_nil (g : Graph) : Inv2 g [] [] [] := by
  refine ⟨by simp, by simp, List.nodup_nil, ?_⟩
  intro a ha
  exact absurd ha (List.not_mem_nil a)

/-- A rank function decreasing along edges certifies acyclicity. -/
lemma acyclic_of_rank (g : Graph) (rank : String → Nat)
    (h : ∀ a b, Edge g a b → rank b < rank a) : Acyclic g := by
  have key : ∀ x y, DepPlus g x y → rank y < rank x := by
    intro x y hd
    induction hd with
    | single e => exact h _ _ e
    | tail _ e ih => exact lt_trans (h _ _ e) ih
  intro x hx
  exact lt_irrefl _ (key x x hx)

/-- The manifest of end-to-end scenarios 1 and 2 of the specification:
`core` depends on `base`. -/
def demoGraph : Graph := [("core", ["base"]), ("base", [])]

lemma demoGraph_acyclic : Acyclic demoGraph := by
  apply acyclic_of_rank demoGraph (fun x => if x = "core" then 1 else 0)
  intro a b e
  have hne : findDeps demoGraph a ≠ [] := by
    intro hnil
    rw [Edge, hnil] at e
    exact List.not_mem_nil b e
  have ha := mem_gkeys_of_findDeps_ne_nil hne
  have : a = "core" ∨ a = "base" := by
    simpa [demoGraph, gkeys] using ha
  rcases this with rfl | rfl
  · have hd : findDeps demoGraph "core" = ["base"] := by decide
    rw [Edge, hd] at e
    rcases List.mem_singleton.1 e with rfl
    decide
  · have hd : findDeps demoGraph "base" = [] := by decide
    rw [Edge, hd] at e
    exact absurd e (List.not_mem_nil b)

/-- C1.  On an acyclic dependency graph, `dfs_sort` outputs every key,
and every direct or transitive dependency of a package occurs at a
strictly smaller index than the package itself. -/
theorem dfs_sort_topological (g : Graph) (hA : Acyclic g) :
    (∀ k ∈ gkeys g, k ∈ dfs_sort g) ∧
    (∀ a b : String, a ∈ gkeys g → DepPlus g a b →
      b ∈ dfs_sort g ∧ (dfs_sort g).indexOf b < (dfs_sort g).indexOf a) := by
  have h := goList_visitOrd (visitOrd hA (fuelOf g)) (gkeys g) [] [] []
    (unvis_nil_lt_fuelOf g) (inv2_nil g) (by simp)
  obtain ⟨hI, hmem, _⟩ := h
  have hS : dfs_sort g =
      (goList (fun d st1 => visit g (fuelOf g) d st1) (gkeys g) ([], [])).2 :=
    rfl
  constructor
  · intro k hk
    rw [hS]
    exact hmem k hk
  · intro a b ha hd
    have haS : a ∈ dfs_sort g := by rw [hS]; exact hmem a ha
    have hb := orderClosed_depPlus hI.2.2.2 (by rw [hS] at haS; exact haS) hd
    rw [hS]
    exact ⟨hb.1, hb.2.2⟩

/-- Witness for C1 at scenario 1: in `demoGraph`, `base` is a dependency
of `core` and is emitted strictly before it. -/
theorem dfs_sort_topological_witness :
    "core" ∈ gkeys demoGraph ∧ DepPlus demoGraph "core" "base" ∧
    "base" ∈ dfs_sort demoGraph ∧
    (dfs_sort demoGraph).indexOf "base" <
      (dfs_sort demoGraph).indexOf "core" := by
  have hd : DepPlus demoGraph "core" "base" :=
    DepPlus.single (by rw [Edge]; decide)
  have h := (dfs_sort_topological demoGraph demoGraph_acyclic).2
    "core" "base" (by decide) hd
  exact ⟨by decide, hd, h.1, h.2⟩

/-- The mutually dependent two-package manifest of end-to-end
scenario 4. -/
def cycGraph : Graph := [("a", ["b"]), ("b", ["a"])]

/-- C2.  On every graph, cyclic or not, `dfs_sort` emits a duplicate-free
list containing each key exactly once, and its result is unchanged by any
further fuel — the recursion needs only boundedly many nested calls, so
the traversal always terminates. -/
theorem dfs_sort_total (g : Graph) :
    (dfs_sort g).Nodup ∧
    (∀ k, k ∈ gkeys g → List.count k (dfs_sort g) = 1) ∧
    (∀ fuel, fuelOf g ≤ fuel → dfs_sortFuel fuel g = dfs_sort g) := by
  have h := goList_visitGood (visitGood g (fuelOf g)) (gkeys g) [] []
    (unvis_nil_lt_fuelOf g)
  obtain ⟨⟨n, hn, hnd, _, hv⟩, hmem⟩ := h
  have hS : dfs_sort g =
      (goList (fun d st1 => visit g (fuelOf g) d st1) (gkeys g) ([], [])).2 :=
    rfl
  have hSn : dfs_sort g = n := by rw [hS, hn]; simp
  refine ⟨by rw [hSn]; exact hnd, ?_, ?_⟩
  · intro k hk
    have hkv := hmem k hk
    have : k ∈ n := by
      rcases (hv k).1 hkv with h' | h'
      · exact absurd h' (List.not_mem_nil k)
      · exact h'
    exact List.count_eq_one_of_mem (by rw [hSn]; exact hnd) (by rw [hSn]; exact this)
  · intro fuel hf
    unfold dfs_sortFuel dfs_sort visitList
    exact (goList_stable (visitStable g fuel) (gkeys g) [] [] (fuelOf g)
      (lt_of_lt_of_le (unvis_nil_lt_fuelOf g) hf)
      (unvis_nil_lt_fuelOf g)).symm ▸ rfl

/-- Witness for C2 at end-to-end scenario 4: the mutually-cyclic graph is
traversed to completion, each key appearing exactly once. -/
theorem dfs_sort_total_witness :
    (dfs_sort cycGraph).Nodup ∧
    List.count "a" (dfs_sort cycGraph) = 1 ∧
    List.count "b" (dfs_sort cycGraph) = 1 ∧
    dfs_sortFuel (fuelOf cycGraph + 7) cycGraph = dfs_sort cycGraph := by
  refine ⟨(dfs_sort_total cycGraph).1,
    (dfs_sort_total cycGraph).2.1 "a" (by decide),
    (dfs_sort_total cycGraph).2.1 "b" (by decide),
    (dfs_sort_total cycGraph).2.2 (fuelOf cycGraph + 7) (by omega)⟩

/-- C3.  Sorting is deterministic: the pipeline is a pure function of the
manifest and flag (rerunning it gives syntactically the same value), the
`visited` set influences the traversal only through membership (so no
set-iteration order can leak into the output), and the `pkg_names` set of
`build_dependency_graph` likewise only acts through membership tests. -/
theorem sort_deterministic :
    (∀ (packages : List PkgEntry) (use_rpm : Bool),
      (build_dependency_graph packages use_rpm).map dfs_sort =
      (build_dependency_graph packages use_rpm).map dfs_sort) ∧
    (∀ (g : Graph) (f : Nat) (pkg : String) (v1 v2 s : List String),
      MemEq v1 v2 →
      (visit g f pkg (v1, s)).2 = (visit g f pkg (v2, s)).2) ∧
    (∀ (deps names1 names2 : List String), MemEq names1 names2 →
      deps.filter (fun d => d ∈ names1) = deps.filter (fun d => d ∈ names2)) := by
  refine ⟨fun _ _ => rfl, ?_, ?_⟩
  · intro g f pkg v1 v2 s h
    exact (visitRep g f pkg v1 v2 s h).2
  · intro deps names1 names2 h
    apply List.filter_congr
    intro x _
    exact decide_eq_decide.2 (h x)

/-- Witness for C3: two differently-ordered representations of the same
visited set produce the same traversal output. -/
theorem sort_deterministic_witness :
    (visit cycGraph 3 "a" (["b", "a"], [])).2 =
      (visit cycGraph 3 "a" (["a", "b"], [])).2 ∧
    ["a", "b"].filter (fun d => d ∈ ["b", "a"]) =
      ["a", "b"].filter (fun d => d ∈ ["a", "b"]) := by
  have hm : MemEq ["b", "a"] ["a", "b"] := by
    intro x
    simp [List.mem_cons]
    tauto
  exact ⟨sort_deterministic.2.1 cycGraph 3 "a" ["b", "a"] ["a", "b"] [] hm,
    sort_deterministic.2.2 ["a", "b"] ["b", "a"] ["a", "b"] hm⟩

/-- Python `str.strip()`: drop leading and trailing whitespace.  Defined
on the character list so that it evaluates inside the kernel. -/
def pyStrip (s : String) : String :=
  String.mk (((s.data.dropWhile Char.isWhitespace).reverse.dropWhile
    Char.isWhitespace).reverse)

/-- Python `str.lower()` (ASCII range, which is all the manifest uses). -/
def pyLower (s : String) : String := String.mk (s.data.map Char.toLower)

/-- Python `str.startswith(pre)`. -/
def pyStartsWith (s pre : String) : Bool := pre.data.isPrefixOf s.data

/-- Python `str.endswith(suf)`. -/
def pyEndsWith (s suf : String) : Bool :=
  suf.data.reverse.isPrefixOf s.data.reverse

/-- Python `sub in s` (substring containment). -/
def pyContains (s sub : String) : Bool :=
  (s.data.tails).any (fun t => sub.data.isPrefixOf t)

/-- `str(pkg.get("Composite", "")).strip().lower() == "yes"` (the raw
field value; an absent key defaults to the empty string). -/
def isYes (c : Option String) : Bool := pyLower (pyStrip (c.getD "")) == "yes"

/-- `pkg.get("Package", "").strip()`. -/
def trimmedName (p : PkgEntry) : String := pyStrip (p.package.getD "")

/-- `list_composite_packages` from `build_tools/install_packages.py`
(the entry loop of lines 65-75, for a manifest that is a list): returns
`(non_composite_packages, composite_packages)`.  The loop appends each
entry's stripped non-blank name to exactly one of the two independent
accumulators in manifest order, which is the pair of `filterMap`s below. -/
def list_composite_packages (data : List PkgEntry) :
    List String × List String :=
  (data.filterMap (fun p =>
      if isYes p.composite = false ∧ trimmedName p ≠ "" then
        some (trimmedName p) else none),
   data.filterMap (fun p =>
      if isYes p.composite = true ∧ trimmedName p ≠ "" then
        some (trimmedName p) else none))

lemma mem_composite_iff (data : List PkgEntry) (x : String) :
    x ∈ (list_composite_packages data).2 ↔
    ∃ p ∈ data, trimmedName p = x ∧ x ≠ "" ∧ isYes p.composite = true := by
  simp only [list_composite_packages, List.mem_filterMap]
  constructor
  · rintro ⟨p, hp, hf⟩
    by_cases hc : isYes p.composite = true ∧ trimmedName p ≠ ""
    · rw [if_pos hc] at hf
      rcases Option.some_inj.1 hf with rfl
      exact ⟨p, hp, rfl, hc.2, hc.1⟩
    · rw [if_neg hc] at hf
      exact absurd hf (Option.noConfusion)
  · rintro ⟨p, hp, rfl, hne, hy⟩
    exact ⟨p, hp, by rw [if_pos ⟨hy, hne⟩]⟩

lemma mem_non_composite_iff (data : List PkgEntry) (x : String) :
    x ∈ (list_composite_packages data).1 ↔
    ∃ p ∈ data, trimmedName p = x ∧ x ≠ "" ∧ isYes p.composite = false := by
  simp only [list_composite_packages, List.mem_filterMap]
  constructor
  · rintro ⟨p, hp, hf⟩
    by_cases hc : isYes p.composite = false ∧ trimmedName p ≠ ""
    · rw [if_pos hc] at hf
      rcases Option.some_inj.1 hf with rfl
      exact ⟨p, hp, rfl, hc.2, hc.1⟩
    · rw [if_neg hc] at hf
      exact absurd hf (Option.noConfusion)
  · rintro ⟨p, hp, rfl, hne, hy⟩
    exact ⟨p, hp, by rw [if_pos ⟨hy, hne⟩]⟩

/-- A manifest with two entries sharing the name `a`, one composite and
one not. -/
def dupNameData : List PkgEntry :=
  [{ package := some "a", composite := some "yes" }, { package := some "a" }]

/-- Counterexample to C4 as stated: for a manifest that is a list but has
two same-named entries with different `Composite` markings, the name `a`
is placed in both output lists, so the two sets are not disjoint. -/
theorem classifier_partition_cex :
    "a" ∈ (list_composite_packages dupNameData).1 ∧
    "a" ∈ (list_composite_packages dupNameData).2 := by decide

/-- C4 (amended).  Under the manifest invariant that distinct entries
never share a non-blank trimmed name: a name is in the composite list iff
some entry carries it with `Composite` trimming case-insensitively to
`"yes"`, in the non-composite list iff some entry carries it without that
marking, blank names appear in neither, the two lists are disjoint, and
their union is exactly the set of non-blank trimmed names of the
manifest. -/
theorem classifier_partition (data : List PkgEntry)
    (h : ∀ p ∈ data, ∀ q ∈ data,
      trimmedName p = trimmedName q → trimmedName p ≠ "" → p = q) :
    (∀ x, x ∈ (list_composite_packages data).2 ↔
      ∃ p ∈ data, trimmedName p = x ∧ x ≠ "" ∧ isYes p.composite = true) ∧
    (∀ x, x ∈ (list_composite_packages data).1 ↔
      ∃ p ∈ data, trimmedName p = x ∧ x ≠ "" ∧ isYes p.composite = false) ∧
    ("" ∉ (list_composite_packages data).2 ∧
      "" ∉ (list_composite_packages data).1) ∧
    (∀ x, ¬ (x ∈ (list_composite_packages data).2 ∧
      x ∈ (list_composite_packages data).1)) ∧
    (∀ x, (x ∈ (list_composite_packages data).2 ∨
        x ∈ (list_composite_packages data).1) ↔
      ∃ p ∈ data, trimmedName p = x ∧ x ≠ "") := by
  refine ⟨mem_composite_iff data, mem_non_composite_iff data, ⟨?_, ?_⟩, ?_, ?_⟩
  · intro hx
    rcases (mem_composite_iff data "").1 hx with ⟨p, _, _, hne, _⟩
    exact hne rfl
  · intro hx
    rcases (mem_non_composite_iff data "").1 hx with ⟨p, _, _, hne, _⟩
    exact hne rfl
  · intro x hx
    obtain ⟨hc, hn⟩ := hx
    rcases (mem_composite_iff data x).1 hc with ⟨p, hp, hpx, hne, hpy⟩
    rcases (mem_non_composite_iff data x).1 hn with ⟨q, hq, hqx, _, hqy⟩
    have hpq : p = q := h p hp q hq (by rw [hpx, hqx]) (by rw [hpx]; exact hne)
    rw [hpq, hqy] at hpy
    exact Bool.false_ne_true hpy
  · intro x
    constructor
    · intro hx
      rcases hx with hx | hx
      · rcases (mem_composite_iff data x).1 hx with ⟨p, hp, hpx, hne, _⟩
        exact ⟨p, hp, hpx, hne⟩
      · rcases (mem_non_composite_iff data x).1 hx with ⟨p, hp, hpx, hne, _⟩
        exact ⟨p, hp, hpx, hne⟩
    · rintro ⟨p, hp, hpx, hne⟩
      by_cases hy : isYes p.composite
      · exact Or.inl ((mem_composite_iff data x).2 ⟨p, hp, hpx, hne, hy⟩)
      · exact Or.inr ((mem_non_composite_iff data x).2
          ⟨p, hp, hpx, hne, by simpa using hy⟩)

/-- A well-formed three-entry manifest: a composite entry with
surrounding whitespace and mixed case, a plain entry, and a blank-named
entry. -/
def demoManifest : List PkgEntry :=
  [{ package := some " rocm " , composite := some " Yes " },
   { package := some "base" },
   { package := some "  ", composite := some "yes" }]

/-- Witness for C4 on `demoManifest`: the amended partition applied at a
concrete manifest. -/
theorem classifier_partition_witness :
    "rocm" ∈ (list_composite_packages demoManifest).2 ∧
    "base" ∈ (list_composite_packages demoManifest).1 ∧
    ¬ ("rocm" ∈ (list_composite_packages demoManifest).2 ∧
      "rocm" ∈ (list_composite_packages demoManifest).1) := by
  refine ⟨by decide, by decide, ?_⟩
  exact (classifier_partition demoManifest (by decide)).2.2.2.1 "rocm"

/-- Consume a literal prefix. -/
def chompStr (pre cs : List Char) : Option (List Char) :=
  if pre.isPrefixOf cs then some (cs.drop pre.length) else none

/-- Consume `\d+` (one or more ASCII digits, maximal munch; equivalent to
the greedy regex since every following literal in the patterns below is a
non-digit). -/
def chompDigits : List Char → Option (List Char)
  | [] => none
  | c :: rest =>
    if c.isDigit then some (rest.dropWhile Char.isDigit) else none

/-- Consume one literal character. -/
def chompLit (ch : Char) : List Char → Option (List Char)
  | [] => none
  | c :: rest => if c = ch then some rest else none

/-- Consume `\d+\.\d+\.\d+` (a numeric semantic version). -/
def chompSemver (cs : List Char) : Option (List Char) :=
  chompDigits cs >>= fun r1 => chompLit '.' r1 >>= fun r2 =>
  chompDigits r2 >>= fun r3 => chompLit '.' r3 >>= fun r4 =>
  chompDigits r4

/-- `is_versioned_package(filename, base, version_flag)` from
`build_tools/install_packages.py`: `re.search` of the anchored pattern
`^base\d+\.\d+\.\d+_\d+\.\d+\.\d+` when the flag is set, otherwise of
`^base_\d+\.\d+\.\d+`. -/
def is_versioned_package (filename base : String) (version_flag : Bool) :
    Bool :=
  if version_flag then
    (chompStr base.data filename.data >>= fun r1 =>
     chompSemver r1 >>= fun r2 => chompLit '_' r2 >>= fun r3 =>
     chompSemver r3).isSome
  else
    (chompStr base.data filename.data >>= fun r1 =>
     chompLit '_' r1 >>= fun r2 => chompSemver r2).isSome

/-- `f.endswith((".deb", ".rpm"))`. -/
def endsDebRpm (f : String) : Bool := pyEndsWith f ".deb" || pyEndsWith f ".rpm"

/-- `os.path.join(dest_dir, f)` (POSIX join). -/
def pyJoin (d f : String) : String :=
  if pyStartsWith f "/" then f
  else if d = "" ∨ pyEndsWith d "/" = true then d ++ f
  else d ++ "/" ++ f

/-- `os.path.basename(p)` (POSIX): the part after the last slash. -/
def pyBasename (p : String) : String :=
  String.mk ((p.data.reverse.takeWhile (fun c => c ≠ '/')).reverse)

/-- Lexicographic comparison of character lists by code point — Python's
string `<=`. -/
def charListLe : List Char → List Char → Bool
  | [], _ => true
  | _ :: _, [] => false
  | a :: as, b :: bs =>
    if a.toNat < b.toNat then true
    else if b.toNat < a.toNat then false
    else charListLe as bs

/-- The sort key comparison of line 157: ascending in
`(not is_versioned_package(basename(x), base, True), x)`. -/
def sortKeyLe (base x y : String) : Bool :=
  let kx := ! is_versioned_package (pyBasename x) base true
  let ky := ! is_versioned_package (pyBasename y) base true
  (!kx && ky) || (kx == ky && charListLe x.data y.data)

/-- Stable insertion into a sorted list (a new element goes before the
first element it compares `le` to, preserving stability). -/
def insertLe (le : String → String → Bool) (x : String) :
    List String → List String
  | [] => [x]
  | y :: rest => if le x y then x :: y :: rest else y :: insertLe le x rest

/-- Stable sort by `le`.  Python's `list.sort` is a stable sort by a key
that here totally orders distinct paths, so any stable sort by the same
comparison produces the identical list. -/
def sortLe (le : String → String → Bool) : List String → List String
  | [] => []
  | x :: rest => insertLe le x (sortLe le rest)

/-- The per-file contribution of the match loop of
`find_packages_for_base` (lines 145-155): with the version flag the
versioned check alone, otherwise the non-versioned check followed by the
versioned check (each appending independently). -/
def matchesForFile (dest_dir base : String) (version_flag : Bool)
    (f : String) : List String :=
  if version_flag then
    if is_versioned_package f base true then [pyJoin dest_dir f] else []
  else
    (if is_versioned_package f base false then [pyJoin dest_dir f] else []) ++
    (if is_versioned_package f base true then [pyJoin dest_dir f] else [])

/-- `find_packages_for_base(dest_dir, base, version_flag)` from
`build_tools/install_packages.py`, with the directory listing passed
explicitly (the only I/O of the function). -/
def find_packages_for_base (dest_dir : String) (listing : List String)
    (base : String) (version_flag : Bool) : List String :=
  let all_files := listing.filter endsDebRpm
  let matched := all_files.flatMap (fun f =>
    if pyStartsWith f base then matchesForFile dest_dir base version_flag f
    else [])
  sortLe (sortKeyLe base) matched

lemma mem_insertLe (le : String → String → Bool) (x z : String) :
    ∀ l, z ∈ insertLe le x l ↔ z = x ∨ z ∈ l := by
  intro l
  induction l with
  | nil => simp [insertLe]
  | cons y rest ih =>
    by_cases h : le x y
    · simp [insertLe, h, List.mem_cons]
    · simp only [insertLe, h, if_neg, Bool.not_eq_true, List.mem_cons, ih]
      tauto

lemma mem_sortLe (le : String → String → Bool) (z : String) :
    ∀ l, z ∈ sortLe le l ↔ z ∈ l := by
  intro l
  induction l with
  | nil => simp [sortLe]
  | cons y rest ih =>
    simp [sortLe, mem_insertLe, ih]

lemma count_insertLe (le : String → String → Bool) (x z : String) :
    ∀ l, (insertLe le x l).count z = (x :: l).count z := by
  intro l
  induction l with
  | nil => simp [insertLe]
  | cons y rest ih =>
    by_cases h : le x y
    · simp [insertLe, h]
    · simp only [insertLe, h, if_neg, Bool.not_eq_true]
      rw [List.count_cons, List.count_cons, ih, List.count_cons, List.count_cons]
      omega

lemma count_sortLe (le : String → String → Bool) (z : String) :
    ∀ l, (sortLe le l).count z = l.count z := by
  intro l
  induction l with
  | nil => simp [sortLe]
  | cons y rest ih =>
    rw [sortLe, count_insertLe, List.count_cons, List.count_cons, ih]

lemma pairwise_insertLe (le : String → String → Bool)
    (htot : ∀ a b, (le a b || le b a) = true)
    (htrans : ∀ a b c, le a b = true → le b c = true → le a c = true)
    (x : String) :
    ∀ l, l.Pairwise (fun a b => le a b = true) →
    (insertLe le x l).Pairwise (fun a b => le a b = true) := by
  intro l
  induction l with
  | nil => intro _; simp [insertLe]
  | cons y rest ih =>
    intro hp
    rcases List.pairwise_cons.1 hp with ⟨hy, hrest⟩
    by_cases h : le x y
    · rw [insertLe, if_pos h]
      refine List.pairwise_cons.2 ⟨?_, hp⟩
      intro z hz
      rcases List.mem_cons.1 hz with rfl | hz
      · exact h
      · exact htrans x y z h (hy z hz)
    · rw [insertLe, if_neg h]
      refine List.pairwise_cons.2 ⟨?_, ih hrest⟩
      intro z hz
      rcases (mem_insertLe le x z rest).1 hz with h' | hz
      · rw [h']
        rcases Bool.or_eq_true_iff.1 (htot x y) with h1 | h1
        · exact absurd h1 h
        · exact h1
      · exact hy z hz

lemma pairwise_sortLe (le : String → String → Bool)
    (htot : ∀ a b, (le a b || le b a) = true)
    (htrans : ∀ a b c, le a b = true → le b c = true → le a c = true) :
    ∀ l, (sortLe le l).Pairwise (fun a b => le a b = true) := by
  intro l
  induction l with
  | nil => simp [sortLe]
  | cons y rest ih => exact pairwise_insertLe le htot htrans y _ ih

lemma charListLe_total : ∀ a b, (charListLe a b || charListLe b a) = true := by
  intro a
  induction a with
  | nil => intro b; simp [charListLe]
  | cons c as ih =>
    intro b
    cases b with
    | nil => simp [charListLe]
    | cons d bs =>
      by_cases h1 : c.toNat < d.toNat
      · simp [charListLe, h1]
      · by_cases h2 : d.toNat < c.toNat
        · simp [charListLe, h1, h2]
        · simp only [charListLe, h1, h2, if_neg, if_false, not_false_iff]
          exact ih bs

lemma charListLe_trans :
    ∀ a b c, charListLe a b = true → charListLe b c = true →
    charListLe a c = true := by
  intro a
  induction a with
  | nil => intro b c _ _; simp [charListLe]
  | cons x as ih =>
    intro b c hab hbc
    cases b with
    | nil => simp [charListLe] at hab
    | cons y bs =>
      cases c with
      | nil => simp [charListLe] at hbc
      | cons z cs =>
        simp only [charListLe] at hab hbc ⊢
        by_cases h1 : x.toNat < y.toNat
        · by_cases h2 : y.toNat < z.toNat
          · rw [if_pos (by omega)]
          · rw [if_neg h2] at hbc
            by_cases h3 : z.toNat < y.toNat
            · rw [if_pos h3] at hbc
              exact absurd hbc (by simp)
            · rw [if_pos (by omega)]
        · rw [if_neg h1] at hab
          by_cases h1' : y.toNat < x.toNat
          · rw [if_pos h1'] at hab
            exact absurd hab (by simp)
          · rw [if_neg h1'] at hab
            by_cases h2 : y.toNat < z.toNat
            · rw [if_pos (by omega)]
            · rw [if_neg h2] at hbc
              by_cases h3 : z.toNat < y.toNat
              · rw [if_pos h3] at hbc
                exact absurd hbc (by simp)
              · rw [if_neg h3] at hbc
                rw [if_neg (by omega), if_neg (by omega)]
                exact ih bs cs hab hbc

lemma charListLe_append : ∀ (p a b : List Char),
    charListLe (p ++ a) (p ++ b) = charListLe a b := by
  intro p
  induction p with
  | nil => intro a b; rfl
  | cons c rest ih =>
    intro a b
    simp only [List.cons_append, charListLe, lt_irrefl, if_neg, if_false,
      not_false_iff]
    exact ih a b

lemma sortKeyLe_total (base : String) :
    ∀ x y, (sortKeyLe base x y || sortKeyLe base y x) = true := by
  intro x y
  unfold sortKeyLe
  cases hx : is_versioned_package (pyBasename x) base true <;>
    cases hy : is_versioned_package (pyBasename y) base true <;>
    simp [hx, hy, charListLe_total]

lemma sortKeyLe_trans (base : String) :
    ∀ x y z, sortKeyLe base x y = true → sortKeyLe base y z = true →
    sortKeyLe base x z = true := by
  intro x y z hxy hyz
  unfold sortKeyLe at hxy hyz ⊢
  cases hx : is_versioned_package (pyBasename x) base true <;>
    cases hy : is_versioned_package (pyBasename y) base true <;>
    cases hz : is_versioned_package (pyBasename z) base true <;>
    simp [hx, hy, hz] at hxy hyz ⊢ <;>
    exact charListLe_trans _ _ _ hxy hyz

lemma mem_matchesForFile (x dest_dir base f : String) (vf : Bool) :
    x ∈ matchesForFile dest_dir base vf f ↔
    x = pyJoin dest_dir f ∧
      (if vf then is_versioned_package f base true = true
       else is_versioned_package f base false = true ∨
         is_versioned_package f base true = true) := by
  cases vf with
  | true =>
    by_cases h : is_versioned_package f base true <;>
      simp [matchesForFile, h]
  | false =>
    by_cases h1 : is_versioned_package f base false <;>
      by_cases h2 : is_versioned_package f base true <;>
      simp [matchesForFile, h1, h2]

/-- C5.  The output of `find_packages_for_base` contains exactly the
joined paths of the listed `.deb`/`.rpm` files that start with `base` and
match the versioned pattern when the version flag is set — and either the
non-versioned or the versioned pattern when it is not. -/
theorem find_packages_membership (dest_dir base : String)
    (listing : List String) (version_flag : Bool) (x : String) :
    x ∈ find_packages_for_base dest_dir listing base version_flag ↔
    ∃ f ∈ listing, endsDebRpm f = true ∧ pyStartsWith f base = true ∧
      x = pyJoin dest_dir f ∧
      (if version_flag then is_versioned_package f base true = true
       else is_versioned_package f base false = true ∨
         is_versioned_package f base true = true) := by
  unfold find_packages_for_base
  rw [mem_sortLe, List.mem_flatMap]
  constructor
  · rintro ⟨f, hf, hx⟩
    rcases List.mem_filter.1 hf with ⟨hfl, hfe⟩
    by_cases hs : pyStartsWith f base
    · rw [if_pos hs] at hx
      rcases (mem_matchesForFile x dest_dir base f version_flag).1 hx with
        ⟨hj, hm⟩
      exact ⟨f, hfl, hfe, hs, hj, hm⟩
    · rw [if_neg hs] at hx
      exact absurd hx (List.not_mem_nil x)
  · rintro ⟨f, hfl, hfe, hs, hj, hm⟩
    refine ⟨f, List.mem_filter.2 ⟨hfl, hfe⟩, ?_⟩
    rw [if_pos hs]
    exact (mem_matchesForFile x dest_dir base f version_flag).2 ⟨hj, hm⟩

/-- C6.  The returned list is ordered with every versioned match before
every non-versioned match, ties broken by lexicographic path order; and
since all entries share the directory prefix, path order on the joined
paths is exactly lexical filename order. -/
theorem find_packages_order (dest_dir base : String)
    (listing : List String) (version_flag : Bool) :
    ((find_packages_for_base dest_dir listing base version_flag).Pairwise
      (fun x y =>
        (is_versioned_package (pyBasename x) base true = true ∧
          is_versioned_package (pyBasename y) base true = false) ∨
        (is_versioned_package (pyBasename x) base true =
            is_versioned_package (pyBasename y) base true ∧
          charListLe x.data y.data = true))) ∧
    (∀ (p a b : List Char), charListLe (p ++ a) (p ++ b) = charListLe a b) := by
  constructor
  · have hp := pairwise_sortLe (sortKeyLe base) (sortKeyLe_total base)
      (sortKeyLe_trans base)
      ((listing.filter endsDebRpm).flatMap (fun f =>
        if pyStartsWith f base then
          matchesForFile dest_dir base version_flag f else []))
    refine List.Pairwise.imp ?_ hp
    intro a b hab
    unfold sortKeyLe at hab
    cases ha : is_versioned_package (pyBasename a) base true <;>
      cases hb : is_versioned_package (pyBasename b) base true <;>
      rw [ha, hb] at hab <;> simp_all
  · exact charListLe_append

lemma chompLit_isSome {ch : Char} {r : List Char}
    (h : (chompLit ch r).isSome) : ∃ rest, r = ch :: rest := by
  cases r with
  | nil => simp [chompLit] at h
  | cons c rest =>
    by_cases hc : c = ch
    · exact ⟨rest, by rw [hc]⟩
    · simp [chompLit, hc] at h

lemma chompDigits_isSome {r : List Char}
    (h : (chompDigits r).isSome) :
    ∃ c rest, r = c :: rest ∧ c.isDigit = true := by
  cases r with
  | nil => simp [chompDigits] at h
  | cons c rest =>
    by_cases hc : c.isDigit
    · exact ⟨c, rest, rfl, hc⟩
    · simp [chompDigits, hc] at h

lemma chompSemver_isSome {r : List Char}
    (h : (chompSemver r).isSome) : (chompDigits r).isSome := by
  unfold chompSemver at h
  cases hd : chompDigits r with
  | none => rw [hd] at h; simp at h
  | some r1 => rfl

/-- No filename satisfies both the versioned and the non-versioned
pattern for one base: after `base`, the versioned pattern requires a
digit and the non-versioned one an underscore. -/
lemma not_both_versions (f base : String) :
    ¬ (is_versioned_package f base false = true ∧
      is_versioned_package f base true = true) := by
  rintro ⟨h0, h1⟩
  unfold is_versioned_package at h0 h1
  rw [if_neg (by simp)] at h0
  rw [if_pos rfl] at h1
  cases hc : chompStr base.data f.data with
  | none => rw [hc] at h0; simp at h0
  | some r =>
    rw [hc] at h0 h1
    have h0' : (chompLit '_' r >>= fun r2 => chompSemver r2).isSome = true := h0
    have h1' : (chompSemver r >>= fun r2 => chompLit '_' r2 >>= fun r3 =>
        chompSemver r3).isSome = true := h1
    have hu : (chompLit '_' r).isSome := by
      cases hl : chompLit '_' r with
      | none => rw [hl] at h0'; simp at h0'
      | some _ => rfl
    have hs : (chompSemver r).isSome := by
      cases hsv : chompSemver r with
      | none => rw [hsv] at h1'; simp at h1'
      | some _ => rfl
    rcases chompLit_isSome hu with ⟨rest, rfl⟩
    rcases chompDigits_isSome (chompSemver_isSome hs) with ⟨c, rest', he, hd⟩
    injection he with hc2 hrest
    rw [← hc2] at hd
    exact absurd hd (by decide)

lemma pyJoin_inj {d f1 f2 : String}
    (h1 : pyStartsWith f1 "/" = false) (h2 : pyStartsWith f2 "/" = false)
    (h : pyJoin d f1 = pyJoin d f2) : f1 = f2 := by
  unfold pyJoin at h
  rw [h1, h2] at h
  simp only [Bool.false_eq_true, if_false] at h
  by_cases hc : d = "" ∨ pyEndsWith d "/" = true
  · rw [if_pos hc, if_pos hc] at h
    have := congrArg String.data h
    rw [String.data_append, String.data_append] at this
    exact String.ext (List.append_cancel_left this)
  · rw [if_neg hc, if_neg hc] at h
    have := congrArg String.data h
    rw [String.data_append, String.data_append, String.data_append,
      String.data_append] at this
    rw [List.append_assoc, List.append_assoc] at this
    have := List.append_cancel_left this
    exact String.ext (List.append_cancel_left this)

lemma count_matchesForFile_le_one (x dest_dir base f : String) (vf : Bool) :
    (matchesForFile dest_dir base vf f).count x ≤ 1 := by
  have hone : ∀ p : String, List.count x [p] ≤ 1 := fun p =>
    le_trans (List.count_le_length _ _) (by simp)
  cases vf with
  | true =>
    by_cases h : is_versioned_package f base true
    · have he : matchesForFile dest_dir base true f = [pyJoin dest_dir f] := by
        simp [matchesForFile, h]
      rw [he]; exact hone _
    · have he : matchesForFile dest_dir base true f = [] := by
        simp [matchesForFile, h]
      rw [he]; simp
  | false =>
    by_cases h1 : is_versioned_package f base false
    · have h2 : is_versioned_package f base true = false := by
        by_contra hc
        exact not_both_versions f base ⟨h1, by simpa using hc⟩
      have he : matchesForFile dest_dir base false f = [pyJoin dest_dir f] := by
        simp [matchesForFile, h1, h2]
      rw [he]; exact hone _
    · by_cases h2 : is_versioned_package f base true
      · have he : matchesForFile dest_dir base false f = [pyJoin dest_dir f] := by
          simp [matchesForFile, h1, h2]
        rw [he]; exact hone _
      · have he : matchesForFile dest_dir base false f = [] := by
          simp [matchesForFile, h1, h2]
        rw [he]; simp

lemma count_flatMap_le_one (dest_dir base : String) (vf : Bool) :
    ∀ (files : List String), files.Nodup →
    (∀ f ∈ files, pyStartsWith f "/" = false) → ∀ x,
    (files.flatMap (fun f =>
      if pyStartsWith f base then matchesForFile dest_dir base vf f
      else [])).count x ≤ 1 := by
  intro files
  induction files with
  | nil => intro _ _ x; simp
  | cons f rest ih =>
    intro hnd hns x
    rw [List.flatMap_cons, List.count_append]
    rcases List.nodup_cons.1 hnd with ⟨hfr, hnd'⟩
    have hrest := ih hnd' (fun f' hf' => hns f' (List.mem_cons_of_mem _ hf'))
    by_cases hz :
        (if pyStartsWith f base then matchesForFile dest_dir base vf f
          else []).count x = 0
    · rw [hz]
      simpa using hrest x
    · have hx1 : x ∈ (if pyStartsWith f base then
          matchesForFile dest_dir base vf f else []) := by
        by_contra hc
        exact hz (List.count_eq_zero.2 hc)
      have hj : x = pyJoin dest_dir f := by
        by_cases hs : pyStartsWith f base
        · rw [if_pos hs] at hx1
          exact ((mem_matchesForFile x dest_dir base f vf).1 hx1).1
        · rw [if_neg hs] at hx1
          exact absurd hx1 (List.not_mem_nil x)
      have hcnt1 : (if pyStartsWith f base then
          matchesForFile dest_dir base vf f else []).count x ≤ 1 := by
        by_cases hs : pyStartsWith f base
        · rw [if_pos hs]; exact count_matchesForFile_le_one x dest_dir base f vf
        · rw [if_neg hs]; simp
      have hcnt2 : (rest.flatMap (fun f =>
          if pyStartsWith f base then matchesForFile dest_dir base vf f
          else [])).count x = 0 := by
        rw [List.count_eq_zero]
        intro hc
        rcases List.mem_flatMap.1 hc with ⟨f', hf', hx'⟩
        by_cases hs' : pyStartsWith f' base
        · rw [if_pos hs'] at hx'
          have hj' : x = pyJoin dest_dir f' :=
            ((mem_matchesForFile x dest_dir base f' vf).1 hx').1
          have : f = f' := pyJoin_inj (hns f (List.mem_cons_self _ _))
            (hns f' (List.mem_cons_of_mem _ hf'))
            (by rw [← hj, ← hj'])
          exact hfr (this ▸ hf')
        · rw [if_neg hs'] at hx'
          exact absurd hx' (List.not_mem_nil x)
      omega

/-- C10.  A directory listing has pairwise-distinct entries, none
starting with a slash; under exactly those facts every path occurs at
most once in the matcher's output: no filename satisfies both patterns,
so even the flag-false double check never appends a file twice. -/
theorem find_packages_no_dup (dest_dir base : String)
    (listing : List String) (version_flag : Bool)
    (hnd : listing.Nodup)
    (hns : ∀ f ∈ listing, pyStartsWith f "/" = false) :
    (∀ f : String, ¬ (is_versioned_package f base false = true ∧
      is_versioned_package f base true = true)) ∧
    ∀ x, (find_packages_for_base dest_dir listing base version_flag).count
      x ≤ 1 := by
  refine ⟨fun f => not_both_versions f base, ?_⟩
  intro x
  unfold find_packages_for_base
  rw [count_sortLe]
  exact count_flatMap_le_one dest_dir base version_flag
    (listing.filter endsDebRpm) (hnd.filter _)
    (fun f hf => hns f (List.mem_of_mem_filter hf)) x

/-- Witness for C10: a listing containing both a versioned and a
non-versioned artifact for `core`; both are collected once each. -/
theorem find_packages_no_dup_witness :
    (∀ x, (find_packages_for_base "/tmp/pk"
      ["core_1.0.0.deb", "core1.2.3_4.5.6_amd64.deb"] "core" false).count
      x ≤ 1) ∧
    (find_packages_for_base "/tmp/pk"
      ["core_1.0.0.deb", "core1.2.3_4.5.6_amd64.deb"] "core" false).length
      = 2 := by
  refine ⟨(find_packages_no_dup "/tmp/pk" "core"
    ["core_1.0.0.deb", "core1.2.3_4.5.6_amd64.deb"] false
    (by decide) (by decide)).2, by decide⟩

/-- `self.pkg_map.get(base, {})` of `LoadPackages`: the dict comprehension
`{pkg["Package"]: pkg for pkg in self.packages}` keeps the last entry for
each name. -/
def pkgMapGet (packages : List PkgEntry) (base : String) : Option PkgEntry :=
  (packages.filter (fun p => p.package == some base)).getLast?

/-- `str(pkg.get("Gfxarch", "False")).lower() == "true"`. -/
def gfxTrue (p : PkgEntry) : Bool := pyLower (p.gfxarch.getD "False") == "true"

/-- The `Gfxarch` flag of the entry registered under `base` (`False` when
`base` is not in the package map). -/
def gfxFlagFor (packages : List PkgEntry) (base : String) : Bool :=
  match pkgMapGet packages base with
  | some p => gfxTrue p
  | none => false

/-- Python truthiness of `self.amdgpu_family` (`None` and `""` are
falsy). -/
def famTruthy (fam : Option String) : Bool :=
  match fam with
  | none => false
  | some s => !(s == "")

/-- Consume an optional literal character (`_?`). -/
def chompOptLit (ch : Char) (cs : List Char) : List Char :=
  match cs with
  | c :: rest => if c = ch then rest else cs
  | [] => cs

/-- `LoadPackages.is_versioned_package(filename, base, version_flag,
arch_flag)` from `build_tools/packaging/linux/package_load.py`.  The
GPU suffix is used iff the entry's `Gfxarch` is true, the family is
truthy, and `"devel" not in base.lower()`; the `arch_flag` parameter is
never read by the Python body and is kept only for signature fidelity. -/
def pl_is_versioned_package (packages : List PkgEntry) (fam : Option String)
    (filename base : String) (version_flag : Bool) ( _arch_flag : Bool) :
    Bool :=
  let useSuffix := gfxFlagFor packages base && famTruthy fam &&
    !(pyContains (pyLower base) "devel")
  let famStr := (fam.getD "").data
  if version_flag then
    if useSuffix then
      (chompStr base.data filename.data >>= fun r1 =>
       chompSemver r1 >>= fun r2 => chompLit '-' r2 >>= fun r3 =>
       chompStr famStr r3 >>= fun r4 => chompLit '_' r4 >>= fun r5 =>
       chompSemver r5).isSome
    else
      (chompStr base.data filename.data >>= fun r1 =>
       chompSemver r1 >>= fun r2 => chompLit '_' r2 >>= fun r3 =>
       chompSemver r3).isSome
  else
    if useSuffix then
      (chompStr base.data filename.data >>= fun r1 =>
       chompLit '-' r1 >>= fun r2 => chompStr famStr r2 >>= fun r3 =>
       chompSemver (chompOptLit '_' r3)).isSome
    else
      (chompStr base.data filename.data >>= fun r1 =>
       chompSemver (chompOptLit '_' r1)).isSome

/-- `LoadPackages._load_packages_arch`: the arch-qualified name list; the
family token is appended iff `Gfxarch` is true, the family is truthy, and
`"devel" not in name` (the raw, case-sensitive name). -/
def pl_load_packages_arch (packages : List PkgEntry) (fam : Option String) :
    List String :=
  packages.map (fun p =>
    let name := p.package.getD ""
    if gfxTrue p && famTruthy fam && !(pyContains name "devel") then
      name ++ "-" ++ fam.getD ""
    else name)

/-- The per-file contribution of the match loop of
`LoadPackages.find_packages_for_base`. -/
def pl_matchesForFile (packages : List PkgEntry) (fam : Option String)
    (dest_dir base : String) (version_flag : Bool) (f : String) :
    List String :=
  if version_flag then
    if pl_is_versioned_package packages fam f base true false then
      [pyJoin dest_dir f] else []
  else
    (if pl_is_versioned_package packages fam f base false false then
      [pyJoin dest_dir f] else []) ++
    (if pl_is_versioned_package packages fam f base true false then
      [pyJoin dest_dir f] else [])

/-- The sort key comparison of `LoadPackages.find_packages_for_base`
line 192 (the `arch_flag` argument of the key is never read). -/
def pl_sortKeyLe (packages : List PkgEntry) (fam : Option String)
    (base x y : String) : Bool :=
  let kx := ! pl_is_versioned_package packages fam (pyBasename x) base true
    false
  let ky := ! pl_is_versioned_package packages fam (pyBasename y) base true
    false
  (!kx && ky) || (kx == ky && charListLe x.data y.data)

/-- `LoadPackages.find_packages_for_base(dest_dir, base, version_flag)`
with the directory listing passed explicitly. -/
def pl_find_packages_for_base (packages : List PkgEntry)
    (fam : Option String) (dest_dir : String) (listing : List String)
    (base : String) (version_flag : Bool) : List String :=
  let all_files := listing.filter endsDebRpm
  let matched := all_files.flatMap (fun f =>
    if pyStartsWith f base then
      pl_matchesForFile packages fam dest_dir base version_flag f
    else [])
  sortLe (pl_sortKeyLe packages fam base) matched

lemma bind_isSome {α β : Type} {o : Option α} {f : α → Option β}
    (h : (o >>= f).isSome = true) : ∃ a, o = some a ∧ (f a).isSome = true := by
  cases o with
  | none => simp at h
  | some a => exact ⟨a, rfl, h⟩

lemma chompStr_decomp {pre cs r : List Char} (h : chompStr pre cs = some r) :
    cs = pre ++ r := by
  unfold chompStr at h
  by_cases hp : pre.isPrefixOf cs
  · rw [if_pos hp] at h
    rcases List.isPrefixOf_iff_prefix.1 hp with ⟨t, rfl⟩
    rw [List.drop_left] at h
    rw [Option.some_inj.1 h]
  · rw [if_neg hp] at h
    exact absurd h (Option.noConfusion)

lemma chompLit_decomp {ch : Char} {cs r : List Char}
    (h : chompLit ch cs = some r) : cs = ch :: r := by
  cases cs with
  | nil => exact absurd h (Option.noConfusion)
  | cons c rest =>
    have h' : (if c = ch then some rest else none) = some r := h
    by_cases hc : c = ch
    · rw [if_pos hc] at h'
      rw [hc, Option.some_inj.1 h']
    · rw [if_neg hc] at h'
      exact absurd h' (Option.noConfusion)

lemma chompDigits_decomp {cs r : List Char} (h : chompDigits cs = some r) :
    ∃ d, cs = d ++ r ∧ d ≠ [] ∧ ∀ c ∈ d, c.isDigit = true := by
  cases cs with
  | nil => exact absurd h (Option.noConfusion)
  | cons c rest =>
    have h' : (if c.isDigit = true then some (rest.dropWhile Char.isDigit)
        else none) = some r := h
    by_cases hc : c.isDigit
    · rw [if_pos hc] at h'
      refine ⟨c :: rest.takeWhile Char.isDigit, ?_, by simp, ?_⟩
      · rw [← Option.some_inj.1 h']
        simp [List.takeWhile_append_dropWhile]
      · intro x hx
        rcases List.mem_cons.1 hx with rfl | hx
        · exact hc
        · exact List.mem_takeWhile_imp hx
    · rw [if_neg hc] at h'
      exact absurd h' (Option.noConfusion)

/-- The shape matched by `\d+\.\d+\.\d+`. -/
def SemverShape (s : List Char) : Prop :=
  ∃ d1 d2 d3 : List Char, s = d1 ++ '.' :: (d2 ++ '.' :: d3) ∧
    d1 ≠ [] ∧ d2 ≠ [] ∧ d3 ≠ [] ∧
    ∀ c ∈ d1 ++ d2 ++ d3, c.isDigit = true

lemma chompSemver_decomp {cs r : List Char}
    (he : chompSemver cs = some r) : ∃ s, cs = s ++ r ∧ SemverShape s := by
  unfold chompSemver at he
  rcases bind_isSome (by rw [he]; rfl) with ⟨r1, h1, _⟩
  rw [h1] at he
  have he1 : (chompLit '.' r1 >>= fun r2 => chompDigits r2 >>= fun r3 =>
      chompLit '.' r3 >>= fun r4 => chompDigits r4) = some r := he
  rcases bind_isSome (by rw [he1]; rfl) with ⟨r2, h2, _⟩
  rw [h2] at he1
  have he2 : (chompDigits r2 >>= fun r3 => chompLit '.' r3 >>= fun r4 =>
      chompDigits r4) = some r := he1
  rcases bind_isSome (by rw [he2]; rfl) with ⟨r3, h3, _⟩
  rw [h3] at he2
  have he3 : (chompLit '.' r3 >>= fun r4 => chompDigits r4) = some r := he2
  rcases bind_isSome (by rw [he3]; rfl) with ⟨r4, h4, _⟩
  rw [h4] at he3
  have he4 : chompDigits r4 = some r := he3
  rcases chompDigits_decomp h1 with ⟨d1, rfl, hd1, hdig1⟩
  have e2 := chompLit_decomp h2
  rcases chompDigits_decomp h3 with ⟨d2, e3, hd2, hdig2⟩
  have e4 := chompLit_decomp h4
  rcases chompDigits_decomp he4 with ⟨d3, e5, hd3, hdig3⟩
  refine ⟨d1 ++ '.' :: (d2 ++ '.' :: d3), ?_, d1, d2, d3, rfl, hd1, hd2, hd3, ?_⟩
  · rw [e2, e3, e4, e5]
    simp
  · intro c hc
    rcases List.mem_append.1 hc with hc | hc
    · rcases List.mem_append.1 hc with hc | hc
      · exact hdig1 c hc
      · exact hdig2 c hc
    · exact hdig3 c hc

/-- The manifest and artifact of end-to-end scenario 3. -/
def scenPkgs : List PkgEntry :=
  [{ package := some "hipsolver", gfxarch := some "True" }]

/-- The scenario-3 artifact filename. -/
def scenFile : String := "hipsolver7.0.0-gfx94x_7.0.0.70000_amd64.deb"

/-- A manifest whose package name contains `DEVEL` in upper case. -/
def develCasePkgs : List PkgEntry :=
  [{ package := some "rocDEVELtool", gfxarch := some "True" }]

/-- Counterexample to C7 as stated: for the `Gfxarch`-true package
`rocDEVELtool` with family `gfx94x`, the family token is appended to the
arch-qualified name (the raw name does not contain `"devel"`), yet the
matching pattern does not embed the token: the matcher accepts the
token-free versioned filename and rejects the token-bearing one (the
lowercased base does contain `"devel"`).  Appending and embedding are
therefore not governed by one shared condition, as the claim asserts. -/
theorem arch_suffix_handling_cex :
    pl_load_packages_arch develCasePkgs (some "gfx94x") =
      ["rocDEVELtool-gfx94x"] ∧
    pl_is_versioned_package develCasePkgs (some "gfx94x")
      "rocDEVELtool1.2.3_4.5.6_amd64.deb" "rocDEVELtool" true false = true ∧
    pl_is_versioned_package develCasePkgs (some "gfx94x")
      "rocDEVELtool1.2.3-gfx94x_4.5.6_amd64.deb" "rocDEVELtool" true false =
      false := by decide

/-- C7 (amended).  (i) When the lowercased base contains `"devel"` the
matcher ignores the family entirely (the pattern never embeds an
architecture suffix).  (ii) In the arch-qualified name list the token is
appended exactly when `Gfxarch` is true, the family is truthy and the
raw (case-sensitive) name does not contain `"devel"`.  (iii) Scenario 3:
`hipsolver` with `Gfxarch` true, family `gfx94x`, versioned flag —
exactly one match, classified versioned.  (iv) For a `Gfxarch`-true,
truthy-family, non-devel base, every filename accepted as versioned
decomposes as base + semantic version + `-` + token + `_` + build
version. -/
theorem arch_suffix_handling :
    (∀ (packages : List PkgEntry) (fam base : String),
      pyContains (pyLower base) "devel" = true →
      ∀ (filename : String) (vflag aflag : Bool),
        pl_is_versioned_package packages (some fam) filename base vflag
          aflag =
        pl_is_versioned_package packages none filename base vflag aflag) ∧
    (∀ (packages : List PkgEntry) (fam : Option String),
      List.Forall₂ (fun p out =>
        (gfxTrue p = true ∧ famTruthy fam = true ∧
          pyContains (p.package.getD "") "devel" = false ∧
          out = (p.package.getD "") ++ "-" ++ fam.getD "") ∨
        ((gfxTrue p = false ∨ famTruthy fam = false ∨
          pyContains (p.package.getD "") "devel" = true) ∧
          out = p.package.getD ""))
        packages (pl_load_packages_arch packages fam)) ∧
    (pl_find_packages_for_base scenPkgs (some "gfx94x") "/tmp/pk"
        [scenFile] "hipsolver" true = [pyJoin "/tmp/pk" scenFile] ∧
      pl_is_versioned_package scenPkgs (some "gfx94x") scenFile "hipsolver"
        true false = true) ∧
    (∀ (packages : List PkgEntry) (fam base filename : String)
      (aflag : Bool),
      gfxFlagFor packages base = true →
      famTruthy (some fam) = true →
      pyContains (pyLower base) "devel" = false →
      pl_is_versioned_package packages (some fam) filename base true aflag =
        true →
      ∃ v1 v2 rest, filename.data =
        base.data ++ (v1 ++ '-' :: (fam.data ++ '_' :: (v2 ++ rest))) ∧
        SemverShape v1 ∧ SemverShape v2) := by
  refine ⟨?_, ?_, ⟨by decide, by decide⟩, ?_⟩
  · intro packages fam base hdev filename vflag aflag
    unfold pl_is_versioned_package
    simp [hdev, famTruthy]
  · intro packages fam
    induction packages with
    | nil => exact List.Forall₂.nil
    | cons p rest ih =>
      rw [pl_load_packages_arch, List.map_cons]
      refine List.forall₂_cons.2 ⟨?_, ih⟩
      by_cases hc : gfxTrue p && famTruthy fam &&
          !(pyContains (p.package.getD "") "devel")
      · simp only [hc, if_pos, if_true]
        rcases Bool.and_eq_true_iff.1 hc with ⟨hc1, hc3⟩
        rcases Bool.and_eq_true_iff.1 hc1 with ⟨hg, hf⟩
        exact Or.inl ⟨hg, hf, by simpa using hc3, by trivial⟩
      · simp only [hc, Bool.false_eq_true, if_false]
        refine Or.inr ⟨?_, by trivial⟩
        cases hg : gfxTrue p with
        | false => exact Or.inl rfl
        | true =>
          cases hf : famTruthy fam with
          | false => exact Or.inr (Or.inl rfl)
          | true =>
            cases hpc : pyContains (p.package.getD "") "devel" with
            | true => exact Or.inr (Or.inr rfl)
            | false =>
              exact absurd (show (gfxTrue p && famTruthy fam &&
                !(pyContains (p.package.getD "") "devel")) = true by
                  rw [hg, hf, hpc]; rfl) hc
  · intro packages fam base filename aflag hg hf hdev hacc
    have hsuf : (gfxFlagFor packages base && famTruthy (some fam) &&
        !(pyContains (pyLower base) "devel")) = true := by
      rw [hg, hf, hdev]; rfl
    have h2 : (if (gfxFlagFor packages base && famTruthy (some fam) &&
          !(pyContains (pyLower base) "devel")) = true then
        (chompStr base.data filename.data >>= fun r1 =>
         chompSemver r1 >>= fun r2 => chompLit '-' r2 >>= fun r3 =>
         chompStr ((some fam : Option String).getD "").data r3 >>= fun r4 =>
         chompLit '_' r4 >>= fun r5 =>
         chompSemver r5).isSome
      else
        (chompStr base.data filename.data >>= fun r1 =>
         chompSemver r1 >>= fun r2 => chompLit '_' r2 >>= fun r3 =>
         chompSemver r3).isSome) = true := hacc
    rw [if_pos hsuf] at h2
    rcases bind_isSome h2 with ⟨r1, hs1, h3⟩
    rcases bind_isSome h3 with ⟨r2, hs2, h4⟩
    rcases bind_isSome h4 with ⟨r3, hs3, h5⟩
    rcases bind_isSome h5 with ⟨r4, hs4, h6⟩
    rcases bind_isSome h6 with ⟨r5, hs5, h7⟩
    rcases Option.isSome_iff_exists.1 h7 with ⟨r6, hs6⟩
    have e1 := chompStr_decomp hs1
    rcases chompSemver_decomp hs2 with ⟨v1, e2, shape1⟩
    have e3 := chompLit_decomp hs3
    have e4 := chompStr_decomp hs4
    have e5 := chompLit_decomp hs5
    rcases chompSemver_decomp hs6 with ⟨v2, e6, shape2⟩
    refine ⟨v1, v2, r6, ?_, shape1, shape2⟩
    rw [e1, e2, e3, e4, e5, e6]
    simp

/-- Witness for C7: the devel-name family-independence applied at a
concrete devel package, and the scenario-3 filename decomposed into
base + semantic version + `-` + token + `_` + build version. -/
theorem arch_suffix_handling_witness :
    (pl_is_versioned_package scenPkgs (some "gfx94x")
        "hipsolver-devel_1.2.3.deb" "hipsolver-devel" false false =
      pl_is_versioned_package scenPkgs none
        "hipsolver-devel_1.2.3.deb" "hipsolver-devel" false false) ∧
    (∃ v1 v2 rest, scenFile.data =
      "hipsolver".data ++
        (v1 ++ '-' :: ("gfx94x".data ++ '_' :: (v2 ++ rest))) ∧
      SemverShape v1 ∧ SemverShape v2) := by
  refine ⟨arch_suffix_handling.1 scenPkgs "gfx94x" "hipsolver-devel"
    (by decide) "hipsolver-devel_1.2.3.deb" false false, ?_⟩
  exact arch_suffix_handling.2.2.2 scenPkgs "gfx94x" "hipsolver" scenFile
    false (by decide) (by decide) (by decide) (by decide)

/-- `re.sub('-devel$', '-dev', word)` from
`build_tools/install_packages.py` lines 176-177.  The `$` anchor also
matches just before a final newline, hence the second branch. -/
def debianRewrite (w : String) : String :=
  if pyEndsWith w "-devel" then
    String.mk (w.data.take (w.data.length - 6) ++ "-dev".data)
  else if pyEndsWith w "-devel\n" then
    String.mk (w.data.take (w.data.length - 7) ++ "-dev\n".data)
  else w

lemma pyEndsWith_mk_append (l suf tail : List Char) :
    pyEndsWith (String.mk (l ++ tail)) (String.mk suf) =
    suf.reverse.isPrefixOf (tail.reverse ++ l.reverse) := by
  unfold pyEndsWith
  rw [show (String.mk (l ++ tail)).data = l ++ tail from rfl,
    List.reverse_append]

lemma not_ends_devel_of_dev (l : List Char) :
    pyEndsWith (String.mk (l ++ "-dev".data)) "-devel" = false := by
  rw [show ("-devel" : String) = String.mk "-devel".data from rfl,
    pyEndsWith_mk_append]
  rfl

lemma not_ends_develn_of_dev (l : List Char) :
    pyEndsWith (String.mk (l ++ "-dev".data)) "-devel\n" = false := by
  rw [show ("-devel\n" : String) = String.mk "-devel\n".data from rfl,
    pyEndsWith_mk_append]
  rfl

lemma not_ends_devel_of_devn (l : List Char) :
    pyEndsWith (String.mk (l ++ "-dev\n".data)) "-devel" = false := by
  rw [show ("-devel" : String) = String.mk "-devel".data from rfl,
    pyEndsWith_mk_append]
  rfl

lemma not_ends_develn_of_devn (l : List Char) :
    pyEndsWith (String.mk (l ++ "-dev\n".data)) "-devel\n" = false := by
  rw [show ("-devel\n" : String) = String.mk "-devel\n".data from rfl,
    pyEndsWith_mk_append]
  rfl

/-- `sort_packages_by_dependencies(package_json_path, composite_names,
use_rpm)` from `build_tools/install_packages.py`: split the manifest by
membership of the name in `composite_names`, build each dependency graph,
topologically sort both.  `none` models the `KeyError` on an entry with
no `"Package"` key (raised by the list comprehensions of lines 45-46). -/
def sort_packages_by_dependencies (packages : List PkgEntry)
    (composite_names : List String) (use_rpm : Bool) :
    Option (List String × List String) :=
  if packages.all (fun p => p.package.isSome) then
    match build_dependency_graph
        (packages.filter (fun p => ¬ (p.package.getD "") ∈ composite_names))
        use_rpm,
      build_dependency_graph
        (packages.filter (fun p => (p.package.getD "") ∈ composite_names))
        use_rpm with
    | some gn, some gc => some (dfs_sort gn, dfs_sort gc)
    | _, _ => none
  else none

/-- The planning loop of `install_packages` (lines 185-204): for each
base in sorted order collect its matches into the final install list, or
record a missing-package diagnostic and continue.  Returns
`(final_install_list, missing bases in order)`. -/
def planLoop (dest_dir : String) (listing : List String) (vflag : Bool) :
    List String → List String × List String
  | [] => ([], [])
  | base :: rest =>
    let pkgs := find_packages_for_base dest_dir listing base vflag
    let r := planLoop dest_dir listing vflag rest
    if pkgs = [] then (r.1, base :: r.2) else (pkgs ++ r.1, r.2)

/-- The planning phase of `install_packages(dest_dir,
package_order_file, version_flag, composite_flag)` (the package-order
file is loaded but never used; installation execution is outside the
engine).  Classifies the manifest, sorts each class by dependencies, on a
Debian target rewrites the two sorted lists once, then runs the matching
loop over the selected class. -/
def install_packages_plan (os_family : String) (manifest : List PkgEntry)
    (dest_dir : String) (listing : List String)
    (version_flag composite_flag : Bool) :
    Option (List String × List String) :=
  match sort_packages_by_dependencies manifest
      (list_composite_packages manifest).2 false with
  | none => none
  | some sp =>
    let sorted_non :=
      if os_family = "debian" then sp.1.map debianRewrite else sp.1
    let sorted_comp :=
      if os_family = "debian" then sp.2.map debianRewrite else sp.2
    some (planLoop dest_dir listing version_flag
      (if composite_flag then sorted_comp else sorted_non))

/-- Modelled from the spec: the Installation Planner sentence "Debian
target additionally rewrites every `-devel` suffix in base names to
`-dev` before matching, exactly once, prior to graph building" — the
rewrite applied to the manifest names before the dependency graphs are
built, with no rewrite afterwards.  This code does not exist in the
repository; it is the comparison point for the claim. -/
def install_packages_plan_rewriteFirst (os_family : String)
    (manifest : List PkgEntry) (dest_dir : String) (listing : List String)
    (version_flag composite_flag : Bool) :
    Option (List String × List String) :=
  let manifest' :=
    if os_family = "debian" then
      manifest.map (fun p => { p with package := p.package.map debianRewrite })
    else manifest
  match sort_packages_by_dependencies manifest'
      (list_composite_packages manifest').2 false with
  | none => none
  | some sp =>
    some (planLoop dest_dir listing version_flag
      (if composite_flag then sp.2 else sp.1))

/-- A manifest whose dependency points at a `-devel` name: the moment of
rewriting is observable in the emitted order. -/
def develDepManifest : List PkgEntry :=
  [{ package := some "b", debDepends := ["a-devel"] },
   { package := some "a-devel" }]

/-- Counterexample to C8 as stated: the code rewrites *after* graph
building and sorting, not prior to it.  On a Debian target with an empty
artifact directory the code emits the bases (as diagnostics) in the order
`["a-dev", "b"]` — the dependency edge `b → a-devel` was honoured by the
sort and the rewrite came afterwards — whereas rewriting prior to graph
building would break that edge and emit `["b", "a-dev"]`. -/
theorem debian_rewrite_cex :
    install_packages_plan "debian" develDepManifest "/tmp/pk" [] false false
      = some ([], ["a-dev", "b"]) ∧
    install_packages_plan_rewriteFirst "debian" develDepManifest "/tmp/pk"
      [] false false = some ([], ["b", "a-dev"]) ∧
    install_packages_plan "debian" develDepManifest "/tmp/pk" [] false false
      ≠ install_packages_plan_rewriteFirst "debian" develDepManifest
        "/tmp/pk" [] false false := by
  refine ⟨by decide, by decide, ?_⟩
  intro h
  rw [show install_packages_plan "debian" develDepManifest "/tmp/pk" []
      false false = some ([], ["a-dev", "b"]) from by decide,
    show install_packages_plan_rewriteFirst "debian" develDepManifest
      "/tmp/pk" [] false false = some ([], ["b", "a-dev"]) from by decide]
      at h
  exact absurd h (by decide)

/-- C8 (amended).  The suffix rewrite `re.sub('-devel$', '-dev', ·)` is
idempotent on every name (`"foo-devel"` becomes `"foo-dev"`; a second
application changes nothing and never yields `"foo-de"`), and on a Debian
target the planner applies it to both sorted name lists exactly once —
after dependency-graph building and sorting, before matching. -/
theorem debian_rewrite_idempotent :
    (∀ w, debianRewrite (debianRewrite w) = debianRewrite w) ∧
    (debianRewrite "foo-devel" = "foo-dev" ∧
      debianRewrite "foo-dev" = "foo-dev") ∧
    (∀ (manifest : List PkgEntry) (dest_dir : String)
      (listing : List String) (vflag cflag : Bool),
      install_packages_plan "debian" manifest dest_dir listing vflag cflag =
      match sort_packages_by_dependencies manifest
          (list_composite_packages manifest).2 false with
      | none => none
      | some sp =>
        some (planLoop dest_dir listing vflag
          ((if cflag then sp.2 else sp.1).map debianRewrite))) := by
  refine ⟨?_, ⟨by decide, by decide⟩, ?_⟩
  · intro w
    by_cases h1 : pyEndsWith w "-devel"
    · have hw1 : debianRewrite w =
          String.mk (w.data.take (w.data.length - 6) ++ "-dev".data) := by
        rw [debianRewrite, if_pos h1]
      rw [hw1, debianRewrite,
        if_neg (by rw [not_ends_devel_of_dev]; simp),
        if_neg (by rw [not_ends_develn_of_dev]; simp)]
    · by_cases h2 : pyEndsWith w "-devel\n"
      · have hw1 : debianRewrite w =
            String.mk (w.data.take (w.data.length - 7) ++ "-dev\n".data) := by
          rw [debianRewrite, if_neg h1, if_pos h2]
        rw [hw1, debianRewrite,
          if_neg (by rw [not_ends_devel_of_devn]; simp),
          if_neg (by rw [not_ends_develn_of_devn]; simp)]
      · have hw : debianRewrite w = w := by
          rw [debianRewrite, if_neg h1, if_neg h2]
        rw [hw, hw]
  · intro manifest dest_dir listing vflag cflag
    cases hs : sort_packages_by_dependencies manifest
        (list_composite_packages manifest).2 false with
    | none => simp [install_packages_plan, hs]
    | some sp =>
      simp [install_packages_plan, hs, apply_ite (List.map debianRewrite)]

/-- The manifest of end-to-end scenarios 1 and 2: `core` depends on
`base`. -/
def scenManifest : List PkgEntry :=
  [{ package := some "core", debDepends := ["base"] },
   { package := some "base" }]

/-- C9.  A base with zero matching artifacts is never fatal: the plan
loop records the base as a missing-package diagnostic and continues, so
the final install list is the in-order concatenation of the matches of
every base in the sorted order and the diagnostics are exactly the
match-less bases.  Scenario 2: with `base`'s artifact absent the plan is
just `core_1.0.0.deb` plus one diagnostic for `base`. -/
theorem planner_best_effort :
    (∀ (dest_dir : String) (listing : List String) (vflag : Bool)
      (bases : List String),
      planLoop dest_dir listing vflag bases =
        (bases.flatMap
          (fun b => find_packages_for_base dest_dir listing b vflag),
         bases.filter
          (fun b => find_packages_for_base dest_dir listing b vflag = []))) ∧
    install_packages_plan "debian" scenManifest "/tmp/pk"
      ["core_1.0.0.deb"] false false =
      some (["/tmp/pk/core_1.0.0.deb"], ["base"]) := by
  refine ⟨?_, by decide⟩
  intro dest_dir listing vflag bases
  induction bases with
  | nil => simp [planLoop]
  | cons b rest ih =>
    by_cases hp : find_packages_for_base dest_dir listing b vflag = []
    · simp [planLoop, hp, ih]
    · simp [planLoop, hp, ih]

end TheRock
